import Mathlib

/-!
Verification development for oledview (src/main.rs): a live OLED framebuffer
viewer that reads a remote target's display memory over the GDB remote serial
protocol, decodes the page-packed layout into a row-major bitmap and renders
it on a fixed-frequency schedule.

The loop body of `main`, the helper `read_u32`, the request formatting and the
frame pacing are embedded as executable Lean definitions.  Machine bytes are
modelled as `Nat` with explicit masking; fallible operations (Rust panics,
out-of-bounds indexing) return `Option`/`Except`.  The packet codec of the
gdb_protocol crate is not part of src/ and is modelled from the spec where a
claim needs it.
-/

instance {ε α : Type} [DecidableEq ε] [DecidableEq α] : DecidableEq (Except ε α) := fun x y =>
  match x, y with
  | Except.ok a, Except.ok b =>
    if h : a = b then isTrue (by rw [h]) else isFalse (fun hh => h (by cases hh; rfl))
  | Except.ok _, Except.error _ => isFalse (fun hh => by cases hh)
  | Except.error _, Except.ok _ => isFalse (fun hh => by cases hh)
  | Except.error a, Except.error b =>
    if h : a = b then isTrue (by rw [h]) else isFalse (fun hh => h (by cases hh; rfl))

/-- Display width in pixels (main.rs line 83: Size::new(128, 48)). -/
def DISPLAY_WIDTH : Nat := 128

/-- Display height in pixels (main.rs line 83). -/
def DISPLAY_HEIGHT : Nat := 48

/-- main.rs line 84: DISPLAY_SIZE.width * (DISPLAY_SIZE.height >> 3). -/
def DISPLAY_BUF_SIZE : Nat := DISPLAY_WIDTH * (DISPLAY_HEIGHT >>> 3)

/-- ASCII code of the lowercase hex digit d, as produced by Rust's
lower-hex formatting. -/
def hexDigitChar (d : Nat) : Nat := if d < 10 then 48 + d else 87 + d

/-- Hex digit values of n, most significant first; the first argument is
structural fuel (instantiated with n itself, which suffices). -/
def hexDigitsGo : Nat → Nat → List Nat
  | _, 0 => []
  | 0, _ => []
  | fuel + 1, n => hexDigitsGo fuel (n / 16) ++ [n % 16]

/-- Rust lower-hex formatting of n as ASCII codes: lowercase, no leading
zeros, a single 48 (the digit 0) for n = 0. -/
def hexAscii (n : Nat) : List Nat :=
  if n = 0 then [48] else (hexDigitsGo n n).map hexDigitChar

/-- Decimal digit values of n, most significant first, with structural fuel. -/
def decDigitsGo : Nat → Nat → List Nat
  | _, 0 => []
  | 0, _ => []
  | fuel + 1, n => decDigitsGo fuel (n / 10) ++ [n % 10]

/-- Rust Display formatting of n as ASCII codes. -/
def decAscii (n : Nat) : List Nat :=
  if n = 0 then [48] else (decDigitsGo n n).map (fun d => 48 + d)

/-- main.rs line 46: the pointer-read request, built by
formatting "m", the address in lower hex, "," and the literal length 4 in
decimal.  109 is the letter m, 44 the comma. -/
def read_u32_request (addr : Nat) : List Nat :=
  109 :: hexAscii addr ++ 44 :: decAscii 4

/-- main.rs line 120: the framebuffer-read request, "m", the address in lower
hex, ",", DISPLAY_BUF_SIZE in lower hex. -/
def fbRequest (addr : Nat) : List Nat :=
  109 :: hexAscii addr ++ 44 :: hexAscii DISPLAY_BUF_SIZE

/-- Value of one ASCII hex digit (0-9, a-f, A-F), as accepted by the hex
crate's decoder. -/
def hexVal (c : Nat) : Option Nat :=
  if 48 ≤ c ∧ c ≤ 57 then some (c - 48)
  else if 97 ≤ c ∧ c ≤ 102 then some (c - 87)
  else if 65 ≤ c ∧ c ≤ 70 then some (c - 55)
  else none

/-- Model of the hex crate's decode: fails on odd length or any non-hex
character, otherwise turns each digit pair into one byte. -/
def hexDecode : List Nat → Option (List Nat)
  | [] => some []
  | [_] => none
  | hi :: lo :: rest =>
    match hexVal hi, hexVal lo, hexDecode rest with
    | some h, some l, some bs => some ((h * 16 + l) :: bs)
    | _, _, _ => none

/-- One bit write of the decode loop (main.rs lines 145-151):
display_buf[buf_idx] |= bitmask, or display_buf[buf_idx] &= !bitmask; the
bitwise not of a byte-sized mask is 255 ^^^ mask.  An out-of-bounds index is
a Rust panic, modelled as none. -/
def writeBit (buf : Array Nat) (idx : Nat) (bitOn : Bool) (mask : Nat) : Option (Array Nat) :=
  if h : idx < buf.size then
    if bitOn then some (buf.set ⟨idx, h⟩ (buf.get ⟨idx, h⟩ ||| mask))
    else some (buf.set ⟨idx, h⟩ (buf.get ⟨idx, h⟩ &&& (255 ^^^ mask)))
  else none

/-- main.rs lines 143-152: the body of for bit in 0..8, over the list of
remaining bit indices; y = p*8 + bit, buf_idx = (y*w + x)/8,
bitmask = 1 << (7 - x % 8), set on a 1 source bit and clear on a 0. -/
def decodeBits (w p x col : Nat) : List Nat → Array Nat → Option (Array Nat)
  | [], buf => some buf
  | bit :: rest, buf =>
    match writeBit buf (((p * 8 + bit) * w + x) / 8) (((col >>> bit) &&& 1) == 1)
        (1 <<< (7 - x % 8)) with
    | none => none
    | some buf1 => decodeBits w p x col rest buf1

/-- main.rs line 142: for (x, col) in row.into_iter().enumerate(), with the
enumeration counter as an explicit argument. -/
def decodeCols (w p : Nat) : Nat → List Nat → Array Nat → Option (Array Nat)
  | _, [], buf => some buf
  | x, col :: rest, buf =>
    match decodeBits w p x col (List.range 8) buf with
    | none => none
    | some buf1 => decodeCols w p (x + 1) rest buf1

/-- main.rs line 141: for (page_y, row) in decoded.chunks(width).enumerate(). -/
def decodePages (w : Nat) : Nat → List (List Nat) → Array Nat → Option (Array Nat)
  | _, [], buf => some buf
  | p, row :: rest, buf =>
    match decodeCols w p 0 row buf with
    | none => none
    | some buf1 => decodePages w (p + 1) rest buf1

/-- slice::chunks with explicit structural fuel (used with fuel = l.length,
which suffices for any positive chunk size). -/
def chunksGo (n : Nat) : Nat → List Nat → List (List Nat)
  | _, [] => []
  | 0, _ => []
  | fuel + 1, l => l.take n :: chunksGo n fuel (l.drop n)

/-- Rust decoded.chunks(width); width is positive in the program. -/
def chunksOf (n : Nat) (l : List Nat) : List (List Nat) := chunksGo n l.length l

/-- The frame decode step of main.rs lines 141-154, from the raw page-packed
bytes into the row-major display buffer; none models the index panic. -/
def fbDecode (w : Nat) (raw : List Nat) (buf : Array Nat) : Option (Array Nat) :=
  decodePages w 0 (chunksOf w raw) buf

/-- Pixel (x, y) of a display buffer of width w: row-major byte (y*w + x)/8,
MSB-first within the byte, i.e. bit 7 - x % 8 (the mask 1 << (7 - x % 8)). -/
def pixelBit (w : Nat) (buf : Array Nat) (x y : Nat) : Bool :=
  ((buf[(y * w + x) / 8]?).getD 0).testBit (7 - x % 8)

/-- The fatal outcomes of one loop iteration (each is a Rust panic or, per the
spec's taxonomy, a fatal ReadError). -/
inductive TickError where
  | u32DecodeError
  | u32Truncated
  | fbDecodeError
  | bufferOverrun
deriving DecidableEq

/-- main.rs lines 45-59: read_u32 acting on the response payload.  A closed
stream (None) yields 0; malformed hex is the "failed to decode a u32
response" panic; fewer than 4 decoded bytes is the array-indexing panic;
otherwise the 4 bytes are assembled little-endian. -/
def read_u32 (resp : Option (List Nat)) : Except TickError Nat :=
  match resp with
  | none => Except.ok 0
  | some data =>
    match hexDecode data with
    | none => Except.error TickError.u32DecodeError
    | some bytes =>
      if h : 3 < bytes.length then
        Except.ok (bytes.get ⟨0, by omega⟩ + bytes.get ⟨1, by omega⟩ * 256
          + bytes.get ⟨2, by omega⟩ * 65536 + bytes.get ⟨3, by omega⟩ * 16777216)
      else Except.error TickError.u32Truncated

/-- main.rs lines 125-132: the framebuffer response handling.  A closed stream
(None) yields the empty block; malformed hex is the "failed to decode display
buffer read response" panic.  u8::from_le is the identity and is dropped. -/
def decodeResponse (resp : Option (List Nat)) : Except TickError (List Nat) :=
  match resp with
  | none => Except.ok []
  | some data =>
    match hexDecode data with
    | none => Except.error TickError.fbDecodeError
    | some bytes => Except.ok bytes

/-- One scheduler iteration (the data path of main.rs lines 112-171): pointer
read, framebuffer request, response decode, frame decode.  Returns the
framebuffer request that is issued, the updated (and rendered) display buffer
and whether the loop continues; the loop stops only on a quit event. -/
def schedulerStep (ptrResp fbResp : Option (List Nat)) (quit : Bool) (buf : Array Nat) :
    Except TickError (List Nat × Array Nat × Bool) :=
  match read_u32 ptrResp with
  | Except.error e => Except.error e
  | Except.ok addr =>
    match decodeResponse fbResp with
    | Except.error e => Except.error e
    | Except.ok raw =>
      match fbDecode DISPLAY_WIDTH raw buf with
      | none => Except.error TickError.bufferOverrun
      | some buf1 => Except.ok (fbRequest addr, buf1, !quit)

/-- main.rs lines 175-183, times in nanoseconds: elapsed = now - last_time;
when elapsed < interval the thread sleeps for interval - elapsed, otherwise
it does not sleep; the new tick boundary is Instant::now() taken after the
sleep, modelled as now plus the requested sleep.  Returns the requested sleep
duration and the new last_time. -/
def timingUpdate (last now interval : Nat) : Nat × Nat :=
  let elapsed := now - last
  let sleepFor := if elapsed < interval then interval - elapsed else 0
  (sleepFor, now + sleepFor)

namespace Rsp

/-- Packet kinds: the source protocol distinguishes a data-carrying command
packet and an acknowledgement. -/
inductive Kind where
  | command
  | ack
deriving DecidableEq

/-- A protocol packet: a kind together with the payload bytes. -/
structure Packet where
  kind : Kind
  payload : List Nat
deriving DecidableEq

/-- Codec failures. -/
inductive CodecError where
  | checksumError
  | framingError
deriving DecidableEq

/-- Checksum: the sum of the payload bytes mod 256. -/
def checksum (payload : List Nat) : Nat := payload.sum % 256

/-- The two lowercase hex digits of the checksum. -/
def checksumHex (payload : List Nat) : List Nat :=
  [hexDigitChar (checksum payload / 16), hexDigitChar (checksum payload % 16)]

/-- Modelled from the spec: the packet codec lives in the gdb_protocol crate,
whose code is not under src/.  Encoding wraps the payload with the start
delimiter (byte 36), the payload itself, the end delimiter (byte 35) and a
two-hex-digit checksum equal to the payload sum mod 256; an acknowledgement
is the lone byte 43 outside the delimited framing. -/
def encode (k : Kind) (payload : List Nat) : List Nat :=
  match k with
  | Kind.ack => [43]
  | Kind.command => 36 :: (payload ++ 35 :: checksumHex payload)

/-- Modelled from the spec: the part of decoding after the start delimiter
has been found and skipped.  The interior runs up to the end delimiter (the
first byte 35); the checksum is recomputed over the interior and compared
with the two hex digits following the end delimiter; a missing end delimiter
or a stream that ends mid-packet is a FramingError, a mismatch a
ChecksumError. -/
def decodeBody (afterStart : List Nat) : Except CodecError Packet :=
  match afterStart.dropWhile (fun c => !(c == 35)) with
  | _ :: c1 :: c2 :: _ =>
    match hexVal c1, hexVal c2 with
    | some hi, some lo =>
      if checksum (afterStart.takeWhile (fun c => !(c == 35))) = hi * 16 + lo then
        Except.ok ⟨Kind.command, afterStart.takeWhile (fun c => !(c == 35))⟩
      else Except.error CodecError.checksumError
    | _, _ => Except.error CodecError.framingError
  | _ => Except.error CodecError.framingError

/-- Modelled from the spec: decoding scans for the start delimiter (byte 36),
consumes until the end delimiter, recomputes the checksum over the interior
bytes and fails with ChecksumError on mismatch or FramingError when a
delimiter is missing or the stream ends mid-packet; a lone acknowledgement
byte (43) is a valid decode result of its own, outside the framing. -/
def decode (wire : List Nat) : Except CodecError Packet :=
  if wire.head? = some 43 then Except.ok ⟨Kind.ack, []⟩
  else
    match wire.dropWhile (fun c => !(c == 36)) with
    | [] => Except.error CodecError.framingError
    | _ :: afterStart => decodeBody afterStart

end Rsp

/-! Arithmetic helpers for the page and pixel position mapping, for widths
that are a multiple of 8 (the program's width is 128 = 8 * 16). -/

theorem div8_lin (mv y x : Nat) : (y * (8 * mv) + x) / 8 = y * mv + x / 8 := by
  rw [show y * (8 * mv) = 8 * (y * mv) by ring]
  rw [Nat.mul_add_div (by norm_num)]

theorem mod8_lin (mv y x : Nat) : (y * (8 * mv) + x) % 8 = x % 8 := by
  rw [show y * (8 * mv) = 8 * (y * mv) by ring]
  rw [Nat.mul_add_mod]

/-- Distinct pixels of a width-8m bitmap live at distinct (byte, bit)
destinations: the destination byte (y*w + x)/8 together with the MSB-first
bit position 7 - x % 8 determines the pixel. -/
theorem pos_inj {mv : Nat} (hm : 0 < mv) {x1 x2 y1 y2 : Nat}
    (hx1 : x1 < 8 * mv) (hx2 : x2 < 8 * mv)
    (hj : (y1 * (8 * mv) + x1) / 8 = (y2 * (8 * mv) + x2) / 8)
    (hk : 7 - x1 % 8 = 7 - x2 % 8) : x1 = x2 ∧ y1 = y2 := by
  have hmod : x1 % 8 = x2 % 8 := by
    have a1 : x1 % 8 < 8 := Nat.mod_lt _ (by norm_num)
    have a2 : x2 % 8 < 8 := Nat.mod_lt _ (by norm_num)
    omega
  rw [div8_lin, div8_lin] at hj
  have hd1 : x1 / 8 < mv := (Nat.div_lt_iff_lt_mul (by norm_num)).mpr (by omega)
  have hd2 : x2 / 8 < mv := (Nat.div_lt_iff_lt_mul (by norm_num)).mpr (by omega)
  have hy : y1 = y2 := by
    have e1 : (y1 * mv + x1 / 8) / mv = y1 := by
      rw [show y1 * mv + x1 / 8 = mv * y1 + x1 / 8 by ring]
      rw [Nat.mul_add_div hm, Nat.div_eq_of_lt hd1]
      omega
    have e2 : (y2 * mv + x2 / 8) / mv = y2 := by
      rw [show y2 * mv + x2 / 8 = mv * y2 + x2 / 8 by ring]
      rw [Nat.mul_add_div hm, Nat.div_eq_of_lt hd2]
      omega
    rw [← e1, ← e2, hj]
  subst hy
  have hdiv : x1 / 8 = x2 / 8 := Nat.add_left_cancel hj
  exact ⟨by omega, rfl⟩

/-- Every (byte, bit) destination with bit position below 8 is reached from
exactly one pixel; this names that pixel. -/
theorem pos_surj {mv : Nat} (hm : 0 < mv) (j k : Nat) (hk : k < 8) :
    8 * (j % mv) + (7 - k) < 8 * mv
    ∧ ((j / mv) * (8 * mv) + (8 * (j % mv) + (7 - k))) / 8 = j
    ∧ 7 - (8 * (j % mv) + (7 - k)) % 8 = k := by
  have hjm : j % mv < mv := Nat.mod_lt _ hm
  refine ⟨by omega, ?_, ?_⟩
  · rw [div8_lin]
    rw [Nat.mul_add_div (by norm_num), Nat.div_eq_of_lt (by omega : 7 - k < 8)]
    rw [Nat.mul_comm (j / mv) mv, Nat.add_zero]
    exact Nat.div_add_mod j mv
  · rw [Nat.mul_add_mod]
    rw [Nat.mod_eq_of_lt (by omega : 7 - k < 8)]
    omega

/-- The source bit test of main.rs line 147, as Nat.testBit. -/
theorem shift_and_one (col b : Nat) : (((col >>> b) &&& 1) == 1) = Nat.testBit col b := by
  rw [Nat.testBit_to_div_mod, Nat.shiftRight_eq_div_pow, Nat.and_one_is_mod]
  by_cases h : col / 2 ^ b % 2 = 1 <;> simp [h]

theorem getD_set (buf : Array Nat) (i : Fin buf.size) (v : Nat) (j : Nat) :
    (((buf.set i v)[j]?).getD 0) = if i.1 = j then v else (buf[j]?).getD 0 := by
  rw [Array.get?_set]
  by_cases h : i.1 = j <;> simp [h]

theorem writeBit_size {buf buf' : Array Nat} {idx : Nat} {bitOn : Bool} {mask : Nat}
    (h : writeBit buf idx bitOn mask = some buf') : buf'.size = buf.size := by
  unfold writeBit at h
  split at h
  · split at h <;> (cases h; simp)
  · cases h

theorem writeBit_isSome {buf : Array Nat} {idx : Nat} {bitOn : Bool} {mask : Nat}
    (h : idx < buf.size) : ∃ buf', writeBit buf idx bitOn mask = some buf' := by
  unfold writeBit
  rw [dif_pos h]
  cases bitOn <;> exact ⟨_, rfl⟩

theorem writeBit_none {buf : Array Nat} {idx : Nat} {bitOn : Bool} {mask : Nat}
    (h : buf.size ≤ idx) : writeBit buf idx bitOn mask = none := by
  unfold writeBit
  rw [dif_neg (by omega)]

/-- Effect of one masked write on any (byte, bit) position below 8: the
targeted position takes the written value, every other position keeps its
previous value. -/
theorem writeBit_testBit {buf buf' : Array Nat} {idx t : Nat} {bitOn : Bool}
    (h : writeBit buf idx bitOn (1 <<< t) = some buf')
    (j k : Nat) (hk : k < 8) (ht : t < 8) :
    ((buf'[j]?).getD 0).testBit k =
      if j = idx ∧ k = t then bitOn else ((buf[j]?).getD 0).testBit k := by
  have h255 : (255 : Nat) = 2 ^ 8 - 1 := by norm_num
  unfold writeBit at h
  split at h
  case isTrue hidx =>
    have hold : (buf[idx]?).getD 0 = buf.get ⟨idx, hidx⟩ := by
      rw [Array.getElem?_eq_getElem hidx, Array.get_eq_getElem]
      rfl
    cases bitOn with
    | true =>
      cases h
      rw [getD_set]
      by_cases hj : j = idx
      · subst hj
        rw [if_pos rfl, Nat.one_shiftLeft, Nat.testBit_or, Nat.testBit_two_pow, hold]
        by_cases hkt : k = t
        · subst hkt
          rw [if_pos ⟨rfl, rfl⟩, decide_eq_true rfl, Bool.or_true]
        · rw [if_neg (fun hh => hkt hh.2), decide_eq_false (fun hh => hkt hh.symm), Bool.or_false]
      · rw [if_neg (fun hh => hj hh.symm), if_neg (fun hh => hj hh.1)]
    | false =>
      cases h
      rw [getD_set]
      by_cases hj : j = idx
      · subst hj
        rw [if_pos rfl, Nat.one_shiftLeft, Nat.testBit_and, Nat.testBit_xor, hold]
        rw [h255, Nat.testBit_two_pow_sub_one, Nat.testBit_two_pow]
        by_cases hkt : k = t
        · subst hkt
          rw [if_pos ⟨rfl, rfl⟩, decide_eq_true hk, decide_eq_true rfl]
          rw [show (true ^^ true) = false from rfl, Bool.and_false]
        · rw [if_neg (fun hh => hkt hh.2), decide_eq_true hk, decide_eq_false (fun hh => hkt hh.symm)]
          rw [show (true ^^ false) = true from rfl, Bool.and_true]
      · rw [if_neg (fun hh => hj hh.symm), if_neg (fun hh => hj hh.1)]
  case isFalse => cases h

/-- Value of a pixel after a decode pass: the source byte's bit when the
source byte is present, otherwise a default (the previous value). -/
def srcBit (o : Option Nat) (i : Nat) (dflt : Bool) : Bool :=
  match o with
  | some col => Nat.testBit col i
  | none => dflt

@[simp] theorem srcBit_none (i : Nat) (d : Bool) : srcBit none i d = d := rfl

@[simp] theorem srcBit_some (c i : Nat) (d : Bool) : srcBit (some c) i d = Nat.testBit c i := rfl

theorem decodeBits_size {w p x col : Nat} {L : List Nat} {buf buf' : Array Nat}
    (h : decodeBits w p x col L buf = some buf') : buf'.size = buf.size := by
  induction L generalizing buf with
  | nil =>
    simp only [decodeBits] at h
    cases h
    rfl
  | cons b rest ih =>
    simp only [decodeBits] at h
    split at h
    · cases h
    · rename_i buf1 hwb
      exact (ih h).trans (writeBit_size hwb)

theorem decodeBits_some {mv : Nat} (hm : 0 < mv) {w : Nat} (hw : w = 8 * mv)
    {p x col : Nat} (hx : x < w) {L : List Nat} (hL : ∀ b ∈ L, b < 8)
    {buf : Array Nat} (hsz : (p + 1) * w ≤ buf.size) :
    ∃ buf', decodeBits w p x col L buf = some buf' ∧ buf'.size = buf.size := by
  induction L generalizing buf with
  | nil => exact ⟨buf, rfl, rfl⟩
  | cons b rest ih =>
    have hb8 : b < 8 := hL b (by simp)
    have hidx : ((p * 8 + b) * w + x) / 8 < buf.size := by
      subst hw
      rw [div8_lin]
      have hx8 : x / 8 < mv := (Nat.div_lt_iff_lt_mul (by norm_num)).mpr (by omega)
      have hlt : (p * 8 + b) * mv + x / 8 < (p + 1) * (8 * mv) := by
        calc (p * 8 + b) * mv + x / 8
            ≤ (p * 8 + 7) * mv + x / 8 := Nat.add_le_add_right (Nat.mul_le_mul_right _ (by omega)) _
          _ < (p * 8 + 7) * mv + mv := Nat.add_lt_add_left hx8 _
          _ = (p + 1) * (8 * mv) := by ring
      exact Nat.lt_of_lt_of_le hlt hsz
    obtain ⟨buf1, hwb⟩ := @writeBit_isSome buf (((p * 8 + b) * w + x) / 8)
      (((col >>> b) &&& 1) == 1) (1 <<< (7 - x % 8)) hidx
    have hsz1 : buf1.size = buf.size := writeBit_size hwb
    obtain ⟨buf', hdec, hsz'⟩ := ih (fun b' hb' => hL b' (by simp [hb'])) (by rw [hsz1]; exact hsz)
    refine ⟨buf', ?_, by rw [hsz', hsz1]⟩
    simp only [decodeBits, hwb]
    exact hdec

theorem decodeBits_none {w p x col : Nat} {L : List Nat} {buf : Array Nat}
    {b : Nat} (hb : b ∈ L) (hoob : buf.size ≤ ((p * 8 + b) * w + x) / 8) :
    decodeBits w p x col L buf = none := by
  induction L generalizing buf with
  | nil => cases hb
  | cons b0 rest ih =>
    simp only [decodeBits]
    by_cases h0 : buf.size ≤ ((p * 8 + b0) * w + x) / 8
    · rw [writeBit_none h0]
    · have hlt : ((p * 8 + b0) * w + x) / 8 < buf.size := by omega
      obtain ⟨buf1, hwb⟩ := @writeBit_isSome buf (((p * 8 + b0) * w + x) / 8)
        (((col >>> b0) &&& 1) == 1) (1 <<< (7 - x % 8)) hlt
      rw [hwb]
      rcases List.mem_cons.mp hb with he | he
      · subst he
        exact absurd hoob h0
      · exact ih he (by rw [writeBit_size hwb]; exact hoob)

/-- Effect of one source byte (page p, column x) on every pixel: pixel
(x, p*8 + b) takes source bit b for each b in the remaining bit list, all
other pixels keep their previous value. -/
theorem decodeBits_pixelBit {mv : Nat} (hm : 0 < mv) {w : Nat} (hw : w = 8 * mv)
    {p x col : Nat} (hx : x < w) {L : List Nat} (hL : ∀ b ∈ L, b < 8)
    {buf buf' : Array Nat} (h : decodeBits w p x col L buf = some buf')
    (x' y' : Nat) (hx' : x' < w) :
    pixelBit w buf' x' y' =
      if x' = x ∧ y' / 8 = p ∧ y' % 8 ∈ L then Nat.testBit col (y' % 8)
      else pixelBit w buf x' y' := by
  induction L generalizing buf with
  | nil =>
    simp only [decodeBits] at h
    cases h
    simp
  | cons b rest ih =>
    simp only [decodeBits] at h
    split at h
    · cases h
    · rename_i buf1 hwb
      have hb8 : b < 8 := hL b (by simp)
      have ht : 7 - x % 8 < 8 := by omega
      have hstep : pixelBit w buf1 x' y' =
          if x' = x ∧ y' = p * 8 + b then Nat.testBit col b else pixelBit w buf x' y' := by
        have hww := writeBit_testBit hwb ((y' * w + x') / 8) (7 - x' % 8) (by omega) ht
        simp only [pixelBit]
        rw [hww, shift_and_one]
        by_cases hc : x' = x ∧ y' = p * 8 + b
        · obtain ⟨hc1, hc2⟩ := hc
          subst hc1
          subst hc2
          rw [if_pos ⟨rfl, rfl⟩, if_pos ⟨rfl, rfl⟩]
        · rw [if_neg hc, if_neg ?_]
          rintro ⟨hcc1, hcc2⟩
          subst hw
          obtain ⟨e1, e2⟩ := pos_inj hm hx' hx hcc1 hcc2
          exact hc ⟨e1, e2⟩
      have hmem8 : y' % 8 ∈ List.range 8 := List.mem_range.mpr (Nat.mod_lt _ (by norm_num))
      have hrest := ih (fun b' hb' => hL b' (by simp [hb'])) h
      rw [hrest]
      by_cases hc1 : x' = x ∧ y' / 8 = p ∧ y' % 8 ∈ rest
      · rw [if_pos hc1, if_pos ⟨hc1.1, hc1.2.1, List.mem_cons.mpr (Or.inr hc1.2.2)⟩]
      · rw [if_neg hc1, hstep]
        by_cases hc2 : x' = x ∧ y' = p * 8 + b
        · have hy8 : y' / 8 = p := by omega
          have hm8 : y' % 8 = b := by omega
          rw [if_pos hc2, if_pos ⟨hc2.1, hy8, by rw [hm8]; exact List.mem_cons_self b rest⟩, hm8]
        · have hnc : ¬(x' = x ∧ y' / 8 = p ∧ y' % 8 ∈ b :: rest) := by
            rintro ⟨d1, d2, d3⟩
            rcases List.mem_cons.mp d3 with he | he
            · exact hc2 ⟨d1, by omega⟩
            · exact hc1 ⟨d1, d2, he⟩
          rw [if_neg hc2, if_neg hnc]

theorem decodeCols_size {w p u : Nat} {cols : List Nat} {buf buf' : Array Nat}
    (h : decodeCols w p u cols buf = some buf') : buf'.size = buf.size := by
  induction cols generalizing u buf with
  | nil =>
    simp only [decodeCols] at h
    cases h
    rfl
  | cons c rest ih =>
    simp only [decodeCols] at h
    split at h
    · cases h
    · rename_i buf1 hdb
      exact (ih h).trans (decodeBits_size hdb)

theorem decodeCols_some {mv : Nat} (hm : 0 < mv) {w : Nat} (hw : w = 8 * mv)
    {p u : Nat} {cols : List Nat} (hlen : u + cols.length ≤ w)
    {buf : Array Nat} (hsz : (p + 1) * w ≤ buf.size) :
    ∃ buf', decodeCols w p u cols buf = some buf' ∧ buf'.size = buf.size := by
  induction cols generalizing u buf with
  | nil => exact ⟨buf, rfl, rfl⟩
  | cons c rest ih =>
    simp only [List.length_cons] at hlen
    have hx0 : u < w := by omega
    obtain ⟨buf1, hdb, hsz1⟩ := @decodeBits_some mv hm w hw p u c hx0
      (List.range 8) (fun b hb => List.mem_range.mp hb) buf hsz
    obtain ⟨buf', hrest, hsz'⟩ := @ih (u + 1) (by omega) buf1 (by rw [hsz1]; exact hsz)
    refine ⟨buf', ?_, by rw [hsz', hsz1]⟩
    simp only [decodeCols, hdb]
    exact hrest

theorem decodeCols_none {w p u : Nat} {cols : List Nat} {buf : Array Nat}
    {i b : Nat} (hi : i < cols.length) (hb : b < 8)
    (hoob : buf.size ≤ ((p * 8 + b) * w + (u + i)) / 8) :
    decodeCols w p u cols buf = none := by
  induction cols generalizing u i buf with
  | nil => simp at hi
  | cons c rest ih =>
    simp only [decodeCols]
    cases hdb : decodeBits w p u c (List.range 8) buf with
    | none => rfl
    | some buf1 =>
      cases i with
      | zero =>
        exfalso
        have hnone : decodeBits w p u c (List.range 8) buf = none :=
          decodeBits_none (List.mem_range.mpr hb) (by simpa using hoob)
        rw [hnone] at hdb
        cases hdb
      | succ i' =>
        refine ih (u := u + 1) (i := i') (by simpa using hi) ?_
        rw [decodeBits_size hdb]
        rw [show (p * 8 + b) * w + (u + 1 + i') = (p * 8 + b) * w + (u + (i' + 1)) by omega]
        exact hoob

/-- Effect of one page row starting at column offset u: pixel (x', y') comes
from the row byte at column x' when the page matches and that byte exists,
otherwise it keeps its previous value. -/
theorem decodeCols_pixelBit {mv : Nat} (hm : 0 < mv) {w : Nat} (hw : w = 8 * mv)
    {p u : Nat} {cols : List Nat} (hlen : u + cols.length ≤ w)
    {buf buf' : Array Nat} (h : decodeCols w p u cols buf = some buf')
    (x' y' : Nat) (hx' : x' < w) :
    pixelBit w buf' x' y' =
      srcBit (if y' / 8 = p ∧ u ≤ x' then cols[x' - u]? else none) (y' % 8)
        (pixelBit w buf x' y') := by
  induction cols generalizing u buf with
  | nil =>
    simp only [decodeCols] at h
    cases h
    by_cases hc : y' / 8 = p ∧ u ≤ x' <;> simp [hc]
  | cons c rest ih =>
    simp only [decodeCols] at h
    split at h
    · cases h
    · rename_i buf1 hdb
      simp only [List.length_cons] at hlen
      have hx0 : u < w := by omega
      have hstep := decodeBits_pixelBit hm hw hx0 (fun b hb => List.mem_range.mp hb) hdb x' y' hx'
      have hmem8 : y' % 8 ∈ List.range 8 := List.mem_range.mpr (Nat.mod_lt _ (by norm_num))
      have hrest := ih (by omega) h
      rw [hrest]
      by_cases hp : y' / 8 = p
      · by_cases hge : u ≤ x'
        · by_cases heq : x' = u
          · subst heq
            rw [if_neg (by rintro ⟨_, hh⟩; omega), if_pos ⟨hp, hge⟩, Nat.sub_self,
              List.getElem?_cons_zero]
            simp only [srcBit_none, srcBit_some]
            rw [hstep, if_pos ⟨rfl, hp, hmem8⟩]
          · have t : u + 1 ≤ x' := by omega
            rw [if_pos ⟨hp, t⟩, if_pos ⟨hp, hge⟩,
              show x' - u = x' - (u + 1) + 1 by omega, List.getElem?_cons_succ]
            rcases hro : rest[x' - (u + 1)]? with _ | col
            · simp only [srcBit_none]
              rw [hstep, if_neg (fun hh => heq hh.1)]
            · simp only [srcBit_some]
        · rw [if_neg (by rintro ⟨_, hh⟩; omega), if_neg (by rintro ⟨_, hh⟩; omega)]
          simp only [srcBit_none]
          rw [hstep, if_neg (by rintro ⟨hh, _⟩; omega)]
      · rw [if_neg (by rintro ⟨hh, _⟩; exact hp hh), if_neg (by rintro ⟨hh, _⟩; exact hp hh)]
        simp only [srcBit_none]
        rw [hstep, if_neg (by rintro ⟨_, hh, _⟩; exact hp hh)]

theorem decodePages_size {w g : Nat} {pages : List (List Nat)} {buf buf' : Array Nat}
    (h : decodePages w g pages buf = some buf') : buf'.size = buf.size := by
  induction pages generalizing g buf with
  | nil =>
    simp only [decodePages] at h
    cases h
    rfl
  | cons row rest ih =>
    simp only [decodePages] at h
    split at h
    · cases h
    · rename_i buf1 hdc
      exact (ih h).trans (decodeCols_size hdc)

theorem decodePages_some {mv : Nat} (hm : 0 < mv) {w : Nat} (hw : w = 8 * mv)
    {g : Nat} {pages : List (List Nat)} (hrows : ∀ r ∈ pages, r.length ≤ w)
    {buf : Array Nat} (hsz : (g + pages.length) * w ≤ buf.size) :
    ∃ buf', decodePages w g pages buf = some buf' ∧ buf'.size = buf.size := by
  induction pages generalizing g buf with
  | nil => exact ⟨buf, rfl, rfl⟩
  | cons row rest ih =>
    simp only [List.length_cons] at hsz
    have hrow : row.length ≤ w := hrows row (by simp)
    have h1 : (g + 1) * w ≤ buf.size :=
      le_trans (Nat.mul_le_mul_right w (by omega)) hsz
    obtain ⟨buf1, hdc, hsz1⟩ := decodeCols_some hm hw (p := g) (u := 0) (by simpa using hrow) h1
    obtain ⟨buf', hrest, hsz'⟩ := @ih (g + 1) (fun r hr => hrows r (by simp [hr])) buf1
      (by
        rw [hsz1]
        exact le_trans (Nat.mul_le_mul_right w (by omega)) hsz)
    refine ⟨buf', ?_, by rw [hsz', hsz1]⟩
    simp only [decodePages, hdc]
    exact hrest

theorem decodePages_none {w g : Nat} {pages : List (List Nat)} {buf : Array Nat}
    {j : Nat} {row : List Nat} {i b : Nat}
    (hrow : pages[j]? = some row) (hi : i < row.length) (hb : b < 8)
    (hoob : buf.size ≤ (((g + j) * 8 + b) * w + i) / 8) :
    decodePages w g pages buf = none := by
  induction pages generalizing g j buf with
  | nil => simp at hrow
  | cons r rest ih =>
    simp only [decodePages]
    cases hdc : decodeCols w g 0 r buf with
    | none => rfl
    | some buf1 =>
      cases j with
      | zero =>
        exfalso
        rw [List.getElem?_cons_zero] at hrow
        cases hrow
        have hnone : decodeCols w g 0 row buf = none :=
          decodeCols_none (u := 0) (i := i) (b := b) hi hb (by simpa using hoob)
        rw [hnone] at hdc
        cases hdc
      | succ j' =>
        refine ih (by simpa using hrow) (g := g + 1) ?_
        rw [decodeCols_size hdc]
        rw [show g + 1 + j' = g + (j' + 1) by omega]
        exact hoob

/-- Effect of a list of page rows starting at page g: pixel (x', y') comes
from row y'/8 - g, byte x', when present, else it keeps its old value. -/
theorem decodePages_pixelBit {mv : Nat} (hm : 0 < mv) {w : Nat} (hw : w = 8 * mv)
    {g : Nat} {pages : List (List Nat)} (hrows : ∀ r ∈ pages, r.length ≤ w)
    {buf buf' : Array Nat} (h : decodePages w g pages buf = some buf')
    (x' y' : Nat) (hx' : x' < w) :
    pixelBit w buf' x' y' =
      srcBit ((if g ≤ y' / 8 then pages[y' / 8 - g]? else none).bind (fun row => row[x']?))
        (y' % 8) (pixelBit w buf x' y') := by
  induction pages generalizing g buf with
  | nil =>
    simp only [decodePages] at h
    cases h
    by_cases hc : g ≤ y' / 8 <;> simp [hc]
  | cons row rest ih =>
    simp only [decodePages] at h
    split at h
    · cases h
    · rename_i buf1 hdc
      have hrow : row.length ≤ w := hrows row (by simp)
      have hstep := decodeCols_pixelBit hm hw (p := g) (u := 0) (by simpa using hrow) hdc x' y' hx'
      have hrest := ih (fun r hr => hrows r (by simp [hr])) h
      rw [hrest]
      by_cases hp : g + 1 ≤ y' / 8
      · rw [if_pos hp, if_pos (by omega : g ≤ y' / 8),
          show y' / 8 - g = y' / 8 - (g + 1) + 1 by omega, List.getElem?_cons_succ]
        have hb1 : pixelBit w buf1 x' y' = pixelBit w buf x' y' := by
          rw [hstep, if_neg (by rintro ⟨hh, _⟩; omega)]
          simp only [srcBit_none]
        rw [hb1]
      · by_cases hp0 : g ≤ y' / 8
        · have hpe : y' / 8 = g := by omega
          rw [if_neg hp, if_pos hp0, hpe, Nat.sub_self, List.getElem?_cons_zero,
            Option.none_bind, Option.some_bind]
          simp only [srcBit_none]
          rw [hstep, if_pos ⟨hpe, Nat.zero_le x'⟩, Nat.sub_zero]
        · rw [if_neg hp, if_neg hp0, Option.none_bind]
          simp only [srcBit_none]
          rw [hstep, if_neg (by rintro ⟨hh, _⟩; omega)]
          simp only [srcBit_none]

/-- Indexing through the chunk list: page p, column x is source byte
p * n + x, provided x < n and the fuel covers the list. -/
theorem chunksGo_getElem? (n : Nat) (hn : 0 < n) (x : Nat) (hx : x < n) :
    ∀ (p : Nat) (l : List Nat) (fuel : Nat), l.length ≤ fuel →
      ((chunksGo n fuel l)[p]?).bind (fun row => row[x]?) = l[p * n + x]? := by
  intro p
  induction p with
  | zero =>
    intro l fuel hfuel
    cases l with
    | nil => cases fuel <;> simp [chunksGo]
    | cons a t =>
      cases fuel with
      | zero => simp at hfuel
      | succ f =>
        simp only [chunksGo]
        rw [List.getElem?_cons_zero, Option.some_bind, Nat.zero_mul, Nat.zero_add]
        exact List.getElem?_take_of_lt hx
  | succ p' ih =>
    intro l fuel hfuel
    cases l with
    | nil => cases fuel <;> simp [chunksGo]
    | cons a t =>
      cases fuel with
      | zero => simp at hfuel
      | succ f =>
        simp only [chunksGo]
        rw [List.getElem?_cons_succ]
        rw [ih ((a :: t).drop n) f (by simp only [List.length_drop]; omega)]
        rw [List.getElem?_drop]
        rw [show n + (p' * n + x) = (p' + 1) * n + x by ring]

theorem chunksOf_getElem? (n : Nat) (hn : 0 < n) (x : Nat) (hx : x < n) (l : List Nat) (p : Nat) :
    ((chunksOf n l)[p]?).bind (fun row => row[x]?) = l[p * n + x]? :=
  chunksGo_getElem? n hn x hx p l l.length (Nat.le_refl _)

theorem chunksGo_row_length (n : Nat) :
    ∀ (j fuel : Nat) (l row : List Nat),
      (chunksGo n fuel l)[j]? = some row → row.length ≤ n := by
  intro j
  induction j with
  | zero =>
    intro fuel l row h
    cases l with
    | nil => cases fuel <;> simp [chunksGo] at h
    | cons a t =>
      cases fuel with
      | zero => simp [chunksGo] at h
      | succ f =>
        simp only [chunksGo, List.getElem?_cons_zero] at h
        cases h
        rw [List.length_take]
        omega
  | succ p' ih =>
    intro fuel l row h
    cases l with
    | nil => cases fuel <;> simp [chunksGo] at h
    | cons a t =>
      cases fuel with
      | zero => simp [chunksGo] at h
      | succ f =>
        simp only [chunksGo, List.getElem?_cons_succ] at h
        exact ih f _ row h

theorem chunksOf_rows_le (n : Nat) (l : List Nat) :
    ∀ r ∈ chunksOf n l, r.length ≤ n := by
  intro r hr
  obtain ⟨j, hp⟩ := List.mem_iff_getElem?.mp hr
  exact chunksGo_row_length n j l.length l r hp

theorem chunksGo_length_le (n : Nat) (hn : 0 < n) :
    ∀ (cnt : Nat) (l : List Nat) (fuel : Nat), l.length ≤ n * cnt →
      (chunksGo n fuel l).length ≤ cnt := by
  intro cnt
  induction cnt with
  | zero =>
    intro l fuel hlen
    have hne : l = [] := List.length_eq_zero.mp (by omega)
    subst hne
    cases fuel <;> simp [chunksGo]
  | succ c ih =>
    intro l fuel hlen
    cases l with
    | nil => cases fuel <;> simp [chunksGo]
    | cons a t =>
      cases fuel with
      | zero => simp [chunksGo]
      | succ f =>
        simp only [chunksGo, List.length_cons]
        rw [Nat.mul_succ] at hlen
        have hrec := ih ((a :: t).drop n) f
          (by rw [List.length_drop]; exact Nat.sub_le_iff_le_add.mpr hlen)
        exact Nat.succ_le_succ hrec

/-- Master characterization of the frame decode on success: pixel (x, y) is
source bit y % 8 of source byte (y/8)*w + x when that byte is present in the
raw block, and keeps its previous value otherwise.  This is exactly the
page/column/bit layout of §4.4 of the spec. -/
theorem fbDecode_pixelBit {mv : Nat} (hm : 0 < mv) {w : Nat} (hw : w = 8 * mv)
    {raw : List Nat} {buf buf' : Array Nat} (h : fbDecode w raw buf = some buf')
    (x y : Nat) (hx : x < w) :
    pixelBit w buf' x y =
      srcBit (raw[(y / 8) * w + x]?) (y % 8) (pixelBit w buf x y) := by
  have hw0 : 0 < w := by omega
  have hmain := decodePages_pixelBit hm hw (g := 0) (chunksOf_rows_le w raw) h x y hx
  rw [hmain, if_pos (Nat.zero_le _), Nat.sub_zero]
  rw [chunksOf_getElem? w hw0 x hx raw (y / 8)]

theorem fbDecode_size {w : Nat} {raw : List Nat} {buf buf' : Array Nat}
    (h : fbDecode w raw buf = some buf') : buf'.size = buf.size :=
  decodePages_size h

/-- The decode succeeds (no out-of-bounds write) whenever the raw block spans
at most n pages and the buffer holds at least n pages. -/
theorem fbDecode_some {mv : Nat} (hm : 0 < mv) {w : Nat} (hw : w = 8 * mv)
    {raw : List Nat} {n : Nat} (hlen : raw.length ≤ w * n)
    {buf : Array Nat} (hsz : n * w ≤ buf.size) :
    ∃ buf', fbDecode w raw buf = some buf' ∧ buf'.size = buf.size := by
  have hw0 : 0 < w := by omega
  have hcnt : (chunksOf w raw).length ≤ n := chunksGo_length_le w hw0 n raw raw.length hlen
  exact decodePages_some hm hw (g := 0) (chunksOf_rows_le w raw)
    (le_trans (Nat.mul_le_mul_right w (by omega)) hsz)

/-- The decode hits an out-of-bounds write (a Rust panic) as soon as some
present source byte i with bit b targets a destination byte index at or
beyond the buffer size. -/
theorem fbDecode_eq_none {w : Nat} (hw0 : 0 < w)
    {raw : List Nat} {buf : Array Nat} {i b : Nat}
    (hi : i < raw.length) (hb : b < 8)
    (hoob : buf.size ≤ ((i / w * 8 + b) * w + i % w) / 8) :
    fbDecode w raw buf = none := by
  have hx : i % w < w := Nat.mod_lt _ hw0
  have hchunk := chunksOf_getElem? w hw0 (i % w) hx raw (i / w)
  rw [show (i / w) * w + i % w = i by rw [Nat.mul_comm]; exact Nat.div_add_mod i w] at hchunk
  rw [List.getElem?_eq_getElem hi] at hchunk
  obtain ⟨row, hrow, hcell⟩ := Option.bind_eq_some.mp hchunk
  have hlen : i % w < row.length := by
    by_contra hc
    rw [List.getElem?_eq_none (by omega)] at hcell
    cases hcell
  show decodePages w 0 (chunksOf w raw) buf = none
  exact decodePages_none (j := i / w) hrow hlen hb (by simpa using hoob)

/-! Byte values stay below 256 through the decode (they are u8 in the
program); needed to recover byte-level equality from bit-level equality. -/

theorem writeBit_lt256 {buf buf' : Array Nat} {idx t : Nat} {bitOn : Bool}
    (ht : t < 8) (h : writeBit buf idx bitOn (1 <<< t) = some buf')
    (hall : ∀ j : Nat, (buf[j]?).getD 0 < 256) : ∀ j : Nat, (buf'[j]?).getD 0 < 256 := by
  intro j
  have h256 : (256 : Nat) = 2 ^ 8 := by norm_num
  unfold writeBit at h
  split at h
  case isTrue hidx =>
    have hold : (buf[idx]?).getD 0 = buf.get ⟨idx, hidx⟩ := by
      rw [Array.getElem?_eq_getElem hidx, Array.get_eq_getElem]
      rfl
    have holdlt : buf.get ⟨idx, hidx⟩ < 256 := by
      rw [← hold]
      exact hall idx
    cases bitOn with
    | true =>
      cases h
      rw [getD_set]
      by_cases hj : idx = j
      · rw [if_pos hj]
        have h2t : (1 <<< t) < 256 := by
          rw [Nat.one_shiftLeft]
          calc 2 ^ t ≤ 2 ^ 7 := Nat.pow_le_pow_right (by norm_num) (by omega)
            _ < 256 := by norm_num
        rw [h256]
        exact Nat.or_lt_two_pow (h256 ▸ holdlt) (h256 ▸ h2t)
      · rw [if_neg hj]
        exact hall j
    | false =>
      cases h
      rw [getD_set]
      by_cases hj : idx = j
      · rw [if_pos hj]
        exact Nat.lt_of_le_of_lt Nat.and_le_left holdlt
      · rw [if_neg hj]
        exact hall j
  case isFalse => cases h

theorem decodeBits_lt256 {w p x col : Nat} {L : List Nat} {buf buf' : Array Nat}
    (h : decodeBits w p x col L buf = some buf')
    (hall : ∀ j : Nat, (buf[j]?).getD 0 < 256) : ∀ j : Nat, (buf'[j]?).getD 0 < 256 := by
  induction L generalizing buf with
  | nil =>
    simp only [decodeBits] at h
    cases h
    exact hall
  | cons b rest ih =>
    simp only [decodeBits] at h
    split at h
    · cases h
    · rename_i buf1 hwb
      exact ih h (writeBit_lt256 (by omega) hwb hall)

theorem decodeCols_lt256 {w p u : Nat} {cols : List Nat} {buf buf' : Array Nat}
    (h : decodeCols w p u cols buf = some buf')
    (hall : ∀ j : Nat, (buf[j]?).getD 0 < 256) : ∀ j : Nat, (buf'[j]?).getD 0 < 256 := by
  induction cols generalizing u buf with
  | nil =>
    simp only [decodeCols] at h
    cases h
    exact hall
  | cons c rest ih =>
    simp only [decodeCols] at h
    split at h
    · cases h
    · rename_i buf1 hdb
      exact ih h (decodeBits_lt256 hdb hall)

theorem decodePages_lt256 {w g : Nat} {pages : List (List Nat)} {buf buf' : Array Nat}
    (h : decodePages w g pages buf = some buf')
    (hall : ∀ j : Nat, (buf[j]?).getD 0 < 256) : ∀ j : Nat, (buf'[j]?).getD 0 < 256 := by
  induction pages generalizing g buf with
  | nil =>
    simp only [decodePages] at h
    cases h
    exact hall
  | cons row rest ih =>
    simp only [decodePages] at h
    split at h
    · cases h
    · rename_i buf1 hdc
      exact ih h (decodeCols_lt256 hdc hall)

theorem fbDecode_lt256 {w : Nat} {raw : List Nat} {buf buf' : Array Nat}
    (h : fbDecode w raw buf = some buf')
    (hall : ∀ j : Nat, (buf[j]?).getD 0 < 256) : ∀ j : Nat, (buf'[j]?).getD 0 < 256 :=
  decodePages_lt256 h hall

/-- Two byte buffers (entries below 256) of equal size that agree on every
pixel of the first t rows, with the byte count within mv * t, are equal
as arrays. -/
theorem bytes_eq_of_pixels_eq {mv : Nat} (hm : 0 < mv) {w : Nat} (hw : w = 8 * mv)
    {t : Nat} {b1 b2 : Array Nat} (hsz : b1.size = b2.size) (hszh : b1.size ≤ mv * t)
    (h1 : ∀ j : Nat, (b1[j]?).getD 0 < 256) (h2 : ∀ j : Nat, (b2[j]?).getD 0 < 256)
    (hpix : ∀ x y, x < w → y < t → pixelBit w b1 x y = pixelBit w b2 x y) :
    b1 = b2 := by
  refine Array.ext _ _ hsz ?_
  intro j hj1 hj2
  have e1 : b1[j] = (b1[j]?).getD 0 := by
    rw [Array.getElem?_eq_getElem hj1]
    rfl
  have e2 : b2[j] = (b2[j]?).getD 0 := by
    rw [Array.getElem?_eq_getElem hj2]
    rfl
  rw [e1, e2]
  apply Nat.eq_of_testBit_eq
  intro k
  by_cases hk : k < 8
  · obtain ⟨hxlt, hpos, hbit⟩ := pos_surj hm j k hk
    have hy : j / mv < t := by
      have hjlt : j < mv * t := Nat.lt_of_lt_of_le hj1 hszh
      exact (Nat.div_lt_iff_lt_mul hm).mpr (by rw [Nat.mul_comm]; exact hjlt)
    have hp := hpix (8 * (j % mv) + (7 - k)) (j / mv) (by omega) hy
    subst hw
    simp only [pixelBit] at hp
    rw [hpos, hbit] at hp
    exact hp
  · have hle : (256 : Nat) ≤ 2 ^ k := by
      calc (256 : Nat) = 2 ^ 8 := by norm_num
        _ ≤ 2 ^ k := Nat.pow_le_pow_right (by norm_num) (by omega)
    rw [Nat.testBit_lt_two_pow (Nat.lt_of_lt_of_le (h1 j) hle),
      Nat.testBit_lt_two_pow (Nat.lt_of_lt_of_le (h2 j) hle)]

/-- Claim C1: the decoder treats the raw block as pages of w consecutive
bytes; the byte at page p = y/8, column x (source index (y/8)*w + x) carries
8 vertically stacked pixels, source bit b = y % 8 mapping to pixel
(x, p*8 + b); the destination bit (row-major byte ((y*w)+x)/8 under the
MSB-first mask 1 <<< (7 - x % 8), which is what pixelBit reads) is set when
the source bit is 1 and cleared when it is 0.  In particular, for width 8 and
height 8 with raw = [1], pixel (0,0) is on and pixels (0,1) through (0,7)
are off. -/
theorem decoder_bit_mapping :
    (∀ (mv w : Nat), 0 < mv → w = 8 * mv →
      ∀ (raw : List Nat) (buf buf' : Array Nat), fbDecode w raw buf = some buf' →
        ∀ x y : Nat, x < w →
          ∀ hi : (y / 8) * w + x < raw.length,
            pixelBit w buf' x y = Nat.testBit (raw.get ⟨(y / 8) * w + x, hi⟩) (y % 8))
    ∧ fbDecode 8 [1] (Array.mkArray 8 0) = some #[128, 0, 0, 0, 0, 0, 0, 0]
    ∧ pixelBit 8 #[128, 0, 0, 0, 0, 0, 0, 0] 0 0 = true
    ∧ (∀ y, y < 8 → 1 ≤ y → pixelBit 8 #[128, 0, 0, 0, 0, 0, 0, 0] 0 y = false) := by
  refine ⟨?_, by decide, by decide, by decide⟩
  intro mv w hm hw raw buf buf' h x y hx hi
  rw [fbDecode_pixelBit hm hw h x y hx, List.getElem?_eq_getElem hi]
  simp only [srcBit_some]
  rw [List.get_eq_getElem]

theorem decoder_bit_mapping_witness :
    pixelBit 8 #[128, 0, 0, 0, 0, 0, 0, 0] 0 0 =
      Nat.testBit (([1] : List Nat).get ⟨0, by decide⟩) 0 :=
  decoder_bit_mapping.1 1 8 (by decide) (by decide) [1] (Array.mkArray 8 0)
    #[128, 0, 0, 0, 0, 0, 0, 0] (by decide) 0 0 (by decide) (by decide)

/-- Claim C2: for raw input strictly shorter than w*h/8 bytes the decode
succeeds (no out-of-bounds access, no panic), updates exactly the pixels
whose source byte is present, and every pixel whose source byte is absent
keeps the value it had before the decode step. -/
theorem decoder_partial_input_preserves :
    ∀ (mv w h : Nat) (raw : List Nat) (buf : Array Nat),
      0 < mv → w = 8 * mv → 8 ∣ h →
      buf.size = w * h / 8 → raw.length < w * h / 8 →
      ∃ buf', fbDecode w raw buf = some buf' ∧ buf'.size = buf.size
        ∧ (∀ x y : Nat, x < w → raw.length ≤ (y / 8) * w + x →
            pixelBit w buf' x y = pixelBit w buf x y)
        ∧ (∀ x y : Nat, x < w →
            ∀ hi : (y / 8) * w + x < raw.length,
              pixelBit w buf' x y = Nat.testBit (raw.get ⟨(y / 8) * w + x, hi⟩) (y % 8)) := by
  intro mv w h raw buf hm hw hdvd hbs hrl
  obtain ⟨q, hq⟩ := hdvd
  have hq8 : w * h / 8 = q * w := by
    rw [hq, show w * (8 * q) = 8 * (q * w) by ring, Nat.mul_div_cancel_left _ (by norm_num)]
  have hlen : raw.length ≤ w * q := by
    rw [hq8] at hrl
    rw [Nat.mul_comm]
    omega
  obtain ⟨buf', hdec, hbsz⟩ := fbDecode_some hm hw (n := q) hlen (by rw [hbs, hq8])
  refine ⟨buf', hdec, hbsz, ?_, ?_⟩
  · intro x y hx hge
    rw [fbDecode_pixelBit hm hw hdec x y hx, List.getElem?_eq_none hge]
    simp only [srcBit_none]
  · intro x y hx hi
    rw [fbDecode_pixelBit hm hw hdec x y hx, List.getElem?_eq_getElem hi]
    simp only [srcBit_some]
    rw [List.get_eq_getElem]

theorem decoder_partial_input_preserves_witness :
    ∃ buf', fbDecode 8 [5] (Array.mkArray 8 0) = some buf'
      ∧ buf'.size = (Array.mkArray 8 0 : Array Nat).size
      ∧ (∀ x y : Nat, x < 8 → ([5] : List Nat).length ≤ (y / 8) * 8 + x →
          pixelBit 8 buf' x y = pixelBit 8 (Array.mkArray 8 0) x y)
      ∧ (∀ x y : Nat, x < 8 →
          ∀ hi : (y / 8) * 8 + x < ([5] : List Nat).length,
            pixelBit 8 buf' x y =
              Nat.testBit (([5] : List Nat).get ⟨(y / 8) * 8 + x, hi⟩) (y % 8)) :=
  decoder_partial_input_preserves 1 8 8 [5] (Array.mkArray 8 0)
    (by decide) (by decide) (by decide) (by decide) (by decide)

/-- Claim C7: on a full-length raw block (exactly w*h/8 bytes) the decode is
a function of the raw input alone: decoding into any two prior buffer states
of the right size yields the same resulting DisplayBuffer contents. -/
theorem decoder_full_input_deterministic :
    ∀ (mv w h : Nat) (raw : List Nat) (b1 b2 : Array Nat),
      0 < mv → w = 8 * mv → 8 ∣ h →
      raw.length = w * h / 8 →
      b1.size = w * h / 8 → b2.size = w * h / 8 →
      (∀ j : Nat, (b1[j]?).getD 0 < 256) → (∀ j : Nat, (b2[j]?).getD 0 < 256) →
      ∃ out, fbDecode w raw b1 = some out ∧ fbDecode w raw b2 = some out := by
  intro mv w h raw b1 b2 hm hw hdvd hrl hs1 hs2 hb1 hb2
  obtain ⟨q, hq⟩ := hdvd
  have hq8 : w * h / 8 = q * w := by
    rw [hq, show w * (8 * q) = 8 * (q * w) by ring, Nat.mul_div_cancel_left _ (by norm_num)]
  have hlen : raw.length ≤ w * q := by
    rw [hrl, hq8, Nat.mul_comm]
  obtain ⟨o1, hd1, hsz1⟩ := fbDecode_some hm hw (n := q) hlen (by rw [hs1, hq8])
  obtain ⟨o2, hd2, hsz2⟩ := fbDecode_some hm hw (n := q) hlen (by rw [hs2, hq8])
  have heq : o1 = o2 := by
    refine bytes_eq_of_pixels_eq hm hw (t := h) (by rw [hsz1, hsz2, hs1, hs2]) ?_
      (fbDecode_lt256 hd1 hb1) (fbDecode_lt256 hd2 hb2) ?_
    · rw [hsz1, hs1, hq8, hq, hw]
      exact Nat.le_of_eq (by ring)
    · intro x y hx hy
      have hy8 : y / 8 < q := (Nat.div_lt_iff_lt_mul (by norm_num)).mpr (by omega)
      have hi : (y / 8) * w + x < raw.length := by
        rw [hrl, hq8]
        calc (y / 8) * w + x < (y / 8) * w + w := by omega
          _ = (y / 8 + 1) * w := by ring
          _ ≤ q * w := Nat.mul_le_mul_right w (by omega)
      rw [fbDecode_pixelBit hm hw hd1 x y hx, fbDecode_pixelBit hm hw hd2 x y hx,
        List.getElem?_eq_getElem hi]
      simp only [srcBit_some]
  exact ⟨o1, hd1, by rw [hd2, heq]⟩

theorem mkArray_bytes_lt256 (n v : Nat) (hv : v < 256) :
    ∀ j : Nat, ((Array.mkArray n v)[j]?).getD 0 < 256 := by
  intro j
  rw [Array.getElem?_mkArray]
  by_cases hj : j < n
  · rw [if_pos hj]
    exact hv
  · rw [if_neg hj]
    norm_num

theorem decoder_full_input_deterministic_witness :
    ∃ out, fbDecode 8 [1, 2, 3, 4, 5, 6, 7, 8] (Array.mkArray 8 0) = some out
      ∧ fbDecode 8 [1, 2, 3, 4, 5, 6, 7, 8] (Array.mkArray 8 255) = some out :=
  decoder_full_input_deterministic 1 8 8 [1, 2, 3, 4, 5, 6, 7, 8]
    (Array.mkArray 8 0) (Array.mkArray 8 255)
    (by decide) (by decide) (by decide) (by decide) (by decide) (by decide)
    (mkArray_bytes_lt256 8 0 (by norm_num)) (mkArray_bytes_lt256 8 255 (by norm_num))

/-- Claim C9: the decode loop performs no upper-bound check on the input
length: with the program's width 128 and 768-byte DisplayBuffer, an input one
byte beyond the 768-byte framebuffer computes destination byte index 768 (at
the buffer length) and the write is out of bounds — a panic, modelled as
none — while the full-length 768-byte input decodes without panic. -/
theorem decoder_overrun_on_overlong_input :
    fbDecode 128 (List.replicate 769 0) (Array.mkArray 768 0) = none
    ∧ fbDecode 128 (List.replicate 768 0) (Array.mkArray 768 0) ≠ none := by
  constructor
  · have h1 : (768 : Nat) < (List.replicate 769 (0 : Nat)).length := by
      rw [List.length_replicate]
      norm_num
    have h2 : (Array.mkArray 768 (0 : Nat)).size ≤ ((768 / 128 * 8 + 0) * 128 + 768 % 128) / 8 := by
      rw [Array.size_mkArray]
    exact fbDecode_eq_none (by norm_num) h1 (by norm_num) h2
  · obtain ⟨buf', hd, _⟩ := @fbDecode_some 16 (by norm_num) 128 (by norm_num)
      (List.replicate 768 0) 6 (by rw [List.length_replicate])
      (Array.mkArray 768 0) (by rw [Array.size_mkArray])
    rw [hd]
    simp

/-- Claim C3: when the framebuffer-read response stream is closed (the
transport yields None), the memory read yields the empty block rather than
an error, decoding the empty block leaves the DisplayBuffer entirely
unchanged, and the scheduler iteration completes normally — it continues
(rendering the previous DisplayBuffer contents) instead of stopping or
crashing. -/
theorem scheduler_closed_stream_continues :
    decodeResponse none = Except.ok []
    ∧ (∀ (w : Nat) (buf : Array Nat), fbDecode w [] buf = some buf)
    ∧ (∀ (buf : Array Nat) (quit : Bool),
        schedulerStep none none quit buf = Except.ok (fbRequest 0, buf, !quit)) := by
  exact ⟨rfl, fun w buf => rfl, fun buf quit => rfl⟩

/-- Claim C10: a closed stream during the per-tick pointer read makes
read_u32 return 0 instead of an error, and the scheduler proceeds to issue
the framebuffer read request for address 0 in that iteration — the ASCII
bytes of "m0,300" (DISPLAY_BUF_SIZE = 768 = 0x300). -/
theorem pointer_read_none_yields_zero :
    read_u32 none = Except.ok 0
    ∧ (∀ (buf : Array Nat) (quit : Bool),
        schedulerStep none none quit buf = Except.ok (fbRequest 0, buf, !quit))
    ∧ fbRequest 0 = [109, 48, 44, 51, 48, 48] := by
  exact ⟨rfl, fun buf quit => rfl, by decide⟩

/-- Claim C8: a malformed hex payload in the framebuffer-read response is
fatal: the response decode is the ReadError panic and the scheduler step
surfaces it as an error (the loop stops) instead of recovering from it or
ignoring it. -/
theorem malformed_hex_is_fatal :
    ∀ (data : List Nat) (quit : Bool) (buf : Array Nat), hexDecode data = none →
      decodeResponse (some data) = Except.error TickError.fbDecodeError
      ∧ schedulerStep none (some data) quit buf = Except.error TickError.fbDecodeError := by
  intro data quit buf hbad
  constructor
  · simp only [decodeResponse, hbad]
  · simp only [schedulerStep, read_u32, decodeResponse, hbad]

theorem malformed_hex_is_fatal_witness :
    decodeResponse (some [103]) = Except.error TickError.fbDecodeError
    ∧ schedulerStep none (some [103]) false #[] = Except.error TickError.fbDecodeError :=
  malformed_hex_is_fatal [103] false #[] rfl

theorem hexDigitsGo_lt16 : ∀ (fuel n : Nat), ∀ d ∈ hexDigitsGo fuel n, d < 16 := by
  intro fuel
  induction fuel with
  | zero =>
    intro n d hd
    cases n <;> simp [hexDigitsGo] at hd
  | succ f ih =>
    intro n d hd
    cases n with
    | zero => simp [hexDigitsGo] at hd
    | succ k =>
      simp only [hexDigitsGo] at hd
      rcases List.mem_append.mp hd with hmem | hmem
      · exact ih _ d hmem
      · simp at hmem
        omega

/-- Claim C6: every memory-read request payload is the ASCII letter m (109),
the address in lowercase hexadecimal, a comma (44), and the length in
lowercase hexadecimal.  The pointer read formats its fixed length 4 in
decimal, which coincides with its lowercase-hex rendering; the framebuffer
read renders DISPLAY_BUF_SIZE in hex.  Every character hexAscii produces is
a lowercase hex digit (0-9 or a-f). -/
theorem memory_read_request_format :
    (∀ addr : Nat, read_u32_request addr = 109 :: hexAscii addr ++ 44 :: hexAscii 4)
    ∧ (∀ addr : Nat, fbRequest addr = 109 :: hexAscii addr ++ 44 :: hexAscii DISPLAY_BUF_SIZE)
    ∧ (∀ n d : Nat, d ∈ hexAscii n → (48 ≤ d ∧ d ≤ 57) ∨ (97 ≤ d ∧ d ≤ 102)) := by
  refine ⟨fun addr => rfl, fun addr => rfl, ?_⟩
  intro n d hd
  by_cases hn : n = 0
  · subst hn
    simp [hexAscii] at hd
    omega
  · rw [hexAscii, if_neg hn] at hd
    obtain ⟨v, hv, hdv⟩ := List.mem_map.mp hd
    have h16 := hexDigitsGo_lt16 n n v hv
    rw [← hdv, hexDigitChar]
    by_cases hv10 : v < 10
    · rw [if_pos hv10]
      left
      omega
    · rw [if_neg hv10]
      right
      omega

theorem memory_read_request_format_witness :
    (48 ≤ 102 ∧ 102 ≤ 57) ∨ (97 ≤ 102 ∧ 102 ≤ 102) :=
  memory_read_request_format.2.2 255 102 (by decide)

/-- Claim C5: at the end of each loop iteration, if the elapsed time since
the last tick boundary is below the target interval the thread's requested
suspension is exactly interval - elapsed, otherwise no suspension happens;
in both cases the tick boundary then becomes the current time (the time
right after the sleep), not the previous boundary plus the interval — at
last = 0, now = 100, interval = 30 the two policies differ: the boundary
becomes 100, while previous-plus-interval would be 30. -/
theorem scheduler_pacing :
    (∀ last now interval : Nat, now - last < interval →
      (timingUpdate last now interval).1 = interval - (now - last))
    ∧ (∀ last now interval : Nat, interval ≤ now - last →
      (timingUpdate last now interval).1 = 0)
    ∧ (∀ last now interval : Nat,
      (timingUpdate last now interval).2 = now + (timingUpdate last now interval).1)
    ∧ (timingUpdate 0 100 30).2 = 100 ∧ (0 : Nat) + 30 ≠ 100 := by
  refine ⟨?_, ?_, fun last now interval => rfl, by decide, by decide⟩
  · intro last now interval h
    simp [timingUpdate, h]
  · intro last now interval h
    simp [timingUpdate, Nat.not_lt.mpr h]

theorem scheduler_pacing_witness :
    (timingUpdate 0 10 30).1 = 30 - (10 - 0) :=
  scheduler_pacing.1 0 10 30 (by decide)

theorem takeWhile_append_all (p : Nat → Bool) :
    ∀ (l1 l2 : List Nat), (∀ a ∈ l1, p a = true) →
      (l1 ++ l2).takeWhile p = l1 ++ l2.takeWhile p := by
  intro l1
  induction l1 with
  | nil =>
    intro l2 _
    simp
  | cons a t ih =>
    intro l2 hall
    rw [List.cons_append, List.takeWhile_cons_of_pos (hall a (by simp)), List.cons_append]
    rw [ih l2 (fun b hb => hall b (by simp [hb]))]

theorem dropWhile_append_all (p : Nat → Bool) :
    ∀ (l1 l2 : List Nat), (∀ a ∈ l1, p a = true) →
      (l1 ++ l2).dropWhile p = l2.dropWhile p := by
  intro l1
  induction l1 with
  | nil =>
    intro l2 _
    simp
  | cons a t ih =>
    intro l2 hall
    rw [List.cons_append, List.dropWhile_cons_of_pos (hall a (by simp))]
    exact ih l2 (fun b hb => hall b (by simp [hb]))

theorem hexVal_hexDigitChar : ∀ d : Nat, d < 16 → hexVal (hexDigitChar d) = some d := by
  decide

/-- Evaluation of the modelled decode body on a well-formed frame interior:
interior bytes (none equal to the end delimiter) followed by the end
delimiter and two hex checksum digits. -/
theorem decodeBody_append (P : List Nat) (d1 d2 v1 v2 : Nat)
    (hPall : ∀ a ∈ P, (fun c => !(c == 35)) a = true)
    (h1 : hexVal d1 = some v1) (h2 : hexVal d2 = some v2) :
    Rsp.decodeBody (P ++ [35, d1, d2]) =
      if Rsp.checksum P = v1 * 16 + v2 then Except.ok ⟨Rsp.Kind.command, P⟩
      else Except.error Rsp.CodecError.checksumError := by
  have hdrop : (P ++ [35, d1, d2]).dropWhile (fun c => !(c == 35)) = [35, d1, d2] := by
    rw [dropWhile_append_all _ _ _ hPall, List.dropWhile_cons_of_neg (by simp)]
  have htake : (P ++ [35, d1, d2]).takeWhile (fun c => !(c == 35)) = P := by
    rw [takeWhile_append_all _ _ _ hPall, List.takeWhile_cons_of_neg (by simp), List.append_nil]
  simp only [Rsp.decodeBody, hdrop, htake, h1, h2]

/-- Claim C4 (amended): for every payload P that contains no end-delimiter
byte (35), decoding the encoding of a command packet with payload P succeeds
and returns a command packet with the same payload; the encoding is the
start delimiter, the payload, the end delimiter and the two-hex-digit
checksum (payload sum mod 256), as encode's definition shows. -/
theorem codec_roundtrip_no_end_delim :
    ∀ P : List Nat, 35 ∉ P →
      Rsp.decode (Rsp.encode Rsp.Kind.command P) = Except.ok ⟨Rsp.Kind.command, P⟩ := by
  intro P hP
  have hPall : ∀ a ∈ P, (fun c => !(c == 35)) a = true := by
    intro a ha
    have hane : a ≠ 35 := fun he => hP (he ▸ ha)
    simp [hane]
  show Rsp.decode (36 :: (P ++ 35 :: Rsp.checksumHex P)) = _
  simp only [Rsp.decode]
  rw [if_neg (by simp), List.dropWhile_cons_of_neg (by simp)]
  show Rsp.decodeBody (P ++ 35 :: Rsp.checksumHex P) = _
  have hcs : Rsp.checksum P < 256 := Nat.mod_lt _ (by norm_num)
  rw [show (35 : Nat) :: Rsp.checksumHex P
      = [35, hexDigitChar (Rsp.checksum P / 16), hexDigitChar (Rsp.checksum P % 16)] from rfl]
  rw [decodeBody_append P _ _ _ _ hPall (hexVal_hexDigitChar _ (by omega))
    (hexVal_hexDigitChar _ (by omega))]
  rw [if_pos (by omega)]

theorem codec_roundtrip_no_end_delim_witness :
    Rsp.decode (Rsp.encode Rsp.Kind.command [1, 2, 250])
      = Except.ok ⟨Rsp.Kind.command, [1, 2, 250]⟩ :=
  codec_roundtrip_no_end_delim [1, 2, 250] (by decide)

/-- Claim C4 counterexample: the claim as stated fails for the payload [35]
(a payload containing the end delimiter): the decoder truncates the interior
at the first end-delimiter byte, so the round trip does not return the
packet; the modelled decode yields a FramingError here. -/
theorem codec_roundtrip_cex :
    Rsp.decode (Rsp.encode Rsp.Kind.command [35]) = Except.error Rsp.CodecError.framingError
    ∧ Rsp.decode (Rsp.encode Rsp.Kind.command [35]) ≠ Except.ok ⟨Rsp.Kind.command, [35]⟩ := by
  decide
